import Mathlib

/-!
# Verification of the rs-es-dashview core

Shallow embedding of `src/main.rs`: the document model (`Log`, `Column`),
the derived projection (`AppState.update_log`), the render formatting
(`format_by_key`, the draw-loop buffer), and the input-loop quit decision
(`take_input`).  Machine integers are modelled as `Nat` (no arithmetic is
ever performed on them), JSON values as an inductive `Json`, and the Rust
`HashMap<String, Value>` as an association list with unique keys whose
`insert` overwrites the existing binding for a key.  Code that can panic
(indexing `values[0]` on an empty vector) is modelled with `Option`:
`none` is the panic.
-/

set_option autoImplicit false

namespace DashView

/-- JSON values, modelling `serde_json::Value`.  Numbers are modelled as
`Int` (the numeric subtleties of `serde_json::Number` play no role in any
property considered here). -/
inductive Json where
  | null : Json
  | bool (b : Bool) : Json
  | num (n : Int) : Json
  | str (s : String) : Json
  | arr (elems : List Json) : Json
  | obj (fields : List (String × Json)) : Json

/-- Model of `HashMap<String, serde_json::Value>` (`JsonMap` in the source):
an association list with unique keys.  Iteration order of the Rust hash map
is irrelevant to the program (only `get`/`insert` are used), so the list
order carries no meaning. -/
def JsonMap := List (String × Json)

/-- `HashMap::get`: the value bound to `k`, if any. -/
def JsonMap.get : JsonMap → String → Option Json
  | [], _ => none
  | (k', v) :: m, k => if k' = k then some v else JsonMap.get m k

/-- `HashMap::insert`: overwrite the binding for `k` if present, otherwise
add a new binding. -/
def JsonMap.insert : JsonMap → String → Json → JsonMap
  | [], k, v => [(k, v)]
  | (k', v') :: m, k, v =>
      if k' = k then (k, v) :: m else (k', v') :: JsonMap.insert m k v

/-- Number of bindings, modelling `HashMap::len`. -/
def JsonMap.size (m : JsonMap) : Nat := m.length

/-- `struct Column { name: String, column_type: String }`. -/
structure Column where
  name : String
  column_type : String

/-- `struct Log { values: Vec<Vec<JsonValue>>, took: u32, columns: Vec<Column> }`.
`took` is a `u32`; it is only ever carried through unchanged, so `Nat`
suffices. -/
structure Log where
  values : List (List Json)
  took : Nat
  columns : List Column

/-- `Log::new()`: the empty document `{ values: vec![vec![]], took: 0, columns: vec![] }`. -/
def Log.new : Log :=
  { values := [[]], took := 0, columns := [] }

/-- The loop body of `AppState::update_log`: for each `(i, column)` in
`columns.iter().enumerate()` (starting at index `i`), if
`row.get(i)` is `Some(value)` then `map.insert(column.name, value)`.
`row` is `values[0]` of the new document. -/
def projectFrom (row : List Json) : List Column → Nat → JsonMap → JsonMap
  | [], _, m => m
  | c :: cs, i, m =>
      projectFrom row cs (i + 1)
        (match row.get? i with
         | some v => m.insert c.name v
         | none => m)

/-- The projection loop run from index 0 on an initially empty map, as
`update_log` does after `self.mapped_document = HashMap::new()`. -/
def projectRow (row : List Json) (cols : List Column) : JsonMap :=
  projectFrom row cols 0 []

/-- The projection computed by `AppState::update_log` for a document
`log`.  The loop body indexes `self.current_document.values[0]`: when
`values` is empty and at least one column exists, that indexing panics
(`none`); when `columns` is empty the loop body never runs, so nothing is
indexed and the result is the empty map. -/
def project (log : Log) : Option JsonMap :=
  match log.values with
  | [] => if log.columns.isEmpty then some [] else none
  | r :: _ => some (projectRow r log.columns)

/-- `struct AppState { current_document: Log, mapped_document: JsonMap }`. -/
structure AppState where
  current_document : Log
  mapped_document : JsonMap

/-- `AppState::new()`: empty document, empty map.  (In the source this is
wrapped in `Arc<Mutex<..>>`; the lock is the serialization discipline
modelled by sequential application of operations.) -/
def AppState.new : AppState :=
  { current_document := Log.new, mapped_document := [] }

/-- `AppState::update_log`: store `new_log` wholesale as
`current_document`, reset `mapped_document`, then run the projection loop.
`none` models the panic on `values[0]` when `values` is empty and
`columns` is not. -/
def AppState.update_log (_s : AppState) (new_log : Log) : Option AppState :=
  (project new_log).map (fun m => { current_document := new_log, mapped_document := m })

/-! ## Pretty printing (model of `serde_json::to_string_pretty`)

The serializer is an external capability (spec §6); on a pure `Json` value
it cannot fail, so the `Err`/panic branch of `format_by_key` is
unreachable and the model is total.  Two-space indentation, one element or
field per line, compact `[]`/`\x7b\x7d` for empty collections, lowercase
hex escapes for control characters. -/

/-- Two spaces per indentation level. -/
def indentOf (depth : Nat) : String :=
  String.join (List.replicate depth "  ")

/-- One lowercase hexadecimal digit. -/
def hexDigit (n : Nat) : Char :=
  if n < 10 then Char.ofNat (48 + n) else Char.ofNat (87 + n)

/-- Four lowercase hexadecimal digits, for `\u00xx` escapes. -/
def hex4 (n : Nat) : String :=
  String.mk [hexDigit (n / 4096 % 16), hexDigit (n / 256 % 16),
             hexDigit (n / 16 % 16), hexDigit (n % 16)]

/-- JSON escaping of one character inside a string literal. -/
def escapeJsonChar (c : Char) : String :=
  if c = '"' then "\\\""
  else if c = '\\' then "\\\\"
  else if c = '\n' then "\\n"
  else if c = '\r' then "\\r"
  else if c = '\t' then "\\t"
  else if c.toNat = 8 then "\\b"
  else if c.toNat = 12 then "\\f"
  else if c.toNat < 32 then "\\u" ++ hex4 c.toNat
  else String.singleton c

/-- A JSON string literal with surrounding quotes. -/
def escapeJsonString (s : String) : String :=
  "\"" ++ String.join (s.toList.map escapeJsonChar) ++ "\""

/-- Multi-line indented pretty printing at a given depth, the shape
produced by `serde_json::to_string_pretty`. -/
def to_string_pretty_at : Nat → Json → String
  | _, .null => "null"
  | _, .bool b => if b then "true" else "false"
  | _, .num n => toString n
  | _, .str s => escapeJsonString s
  | _, .arr [] => "[]"
  | depth, .arr (x :: xs) =>
      "[\n" ++
        String.intercalate ",\n"
          ((x :: xs).attach.map
            (fun e => indentOf (depth + 1) ++ to_string_pretty_at (depth + 1) e.1)) ++
      "\n" ++ indentOf depth ++ "]"
  | _, .obj [] => "\x7b\x7d"
  | depth, .obj (f :: fs) =>
      "\x7b\n" ++
        String.intercalate ",\n"
          ((f :: fs).attach.map
            (fun e => indentOf (depth + 1) ++ escapeJsonString e.1.1 ++ ": " ++
                      to_string_pretty_at (depth + 1) e.1.2)) ++
      "\n" ++ indentOf depth ++ "\x7d"
  termination_by _depth j => sizeOf j
  decreasing_by
  · have h := List.sizeOf_lt_of_mem e.2
    simp only [Json.arr.sizeOf_spec, List.cons.sizeOf_spec] at *
    omega
  · have h := List.sizeOf_lt_of_mem e.2
    have h2 : sizeOf (e.1).2 < sizeOf e.1 := by
      obtain ⟨a, b⟩ := e.1
      simp only [Prod.mk.sizeOf_spec]
      omega
    simp only [Json.obj.sizeOf_spec, List.cons.sizeOf_spec] at *
    omega

/-- `serde_json::to_string_pretty`, starting at depth 0. -/
def to_string_pretty (v : Json) : String :=
  to_string_pretty_at 0 v

/-! ## Rendering (`format_by_key`, `draw_ui`) -/

/-- `const TIMESTAMP: &str = "@timestamp"`. -/
def TIMESTAMP : String := "@timestamp"

/-- `const AGENT_ID: &str = "agent.id"`. -/
def AGENT_ID : String := "agent.id"

/-- `const HOST_NAME: &str = "host.name"`. -/
def HOST_NAME : String := "host.name"

/-- `const HOST_OS_NAME: &str = "host.os.name"`. -/
def HOST_OS_NAME : String := "host.os.name"

/-- `const USER_NAME: &str = "user.name"`. -/
def USER_NAME : String := "user.name"

/-- `const HOST_IP: &str = "host.ip"`. -/
def HOST_IP : String := "host.ip"

/-- The `keys` vector built in `draw_ui`. -/
def displayKeys : List String :=
  [TIMESTAMP, AGENT_ID, HOST_NAME, HOST_OS_NAME, USER_NAME, HOST_IP]

/-- `format_by_key`: look `key` up in the map; present values are
pretty-printed as `"key": <pretty>\n`, absent keys render as
`"key": unknown\n`.  (On a pure `Json` value `to_string_pretty` cannot
fail, so the `Err => panic` branch is unreachable.) -/
def format_by_key (key : String) (map : JsonMap) : String :=
  match map.get key with
  | some value => "\"" ++ key ++ "\": " ++ to_string_pretty value ++ "\n"
  | none => "\"" ++ key ++ "\": unknown\n"

/-- The display buffer of one `draw_ui` cycle:
`keys.iter().map(|item| format_by_key(item, map)).collect::<String>()`. -/
def draw_message (map : JsonMap) : String :=
  String.join (displayKeys.map (fun item => format_by_key item map))

/-- Modelled from the spec's words (§4.4, the formatting rule): the render
buffer is the concatenation, in the fixed key order, of
`"k": <pretty(P[k])>\n` when `k ∈ P` and `"k": unknown\n` when `k` is
absent — written as direct recursion over the key list to compare with
`draw_message`. -/
def specRenderBuffer (P : JsonMap) : List String → String
  | [] => ""
  | k :: ks =>
      (match P.get k with
       | some v => "\"" ++ k ++ "\": " ++ to_string_pretty v ++ "\n"
       | none => "\"" ++ k ++ "\": unknown\n") ++ specRenderBuffer P ks

/-! ## Input loop (`take_input`) -/

/-- `crossterm::event::KeyEventKind` (`repeatKind` stands for `Repeat`). -/
inductive KeyEventKind where
  | press : KeyEventKind
  | release : KeyEventKind
  | repeatKind : KeyEventKind
deriving DecidableEq

/-- `crossterm::event::KeyCode`: character keys, and `nonChar` for every
non-character key code (Enter, Esc, arrows, ...), which the program never
distinguishes. -/
inductive KeyCode where
  | char (c : Char) : KeyCode
  | nonChar : KeyCode
deriving DecidableEq

/-- `crossterm::event::KeyEvent`; `modifiers` models the `KeyModifiers`
bitflags, which `take_input` never inspects. -/
structure KeyEvent where
  code : KeyCode
  kind : KeyEventKind
  modifiers : Nat

/-- `crossterm::event::Event`: key events, and `other` for the variants
(`Mouse`, `Resize`, ...) that the `if let Event::Key` pattern skips. -/
inductive Event where
  | key (k : KeyEvent) : Event
  | other : Event

/-- One iteration of the `take_input` loop body: `true` means `break`.
`if let Event::Key(key) = ... { if key.kind == Press { if let Char('q') =
key.code { break } } }`. -/
def take_input_step (e : Event) : Bool :=
  match e with
  | .key key =>
      if key.kind = KeyEventKind.press then
        match key.code with
        | .char c => c = 'q'
        | .nonChar => false
      else false
  | .other => false

/-- The `take_input` loop run over a finite stream of input events:
`true` iff the loop breaks while consuming the stream. -/
def take_input : List Event → Bool
  | [] => false
  | e :: es => if take_input_step e then true else take_input es

/-! ## Ingestion endpoint and reachable states -/

/-- The body of the warp `POST /data` route: lock the state, run
`update_log(log)`, reply with `state.current_document`.  `none` models the
panic inside the handler (the reply is never produced). -/
def handle_data (s : AppState) (log : Log) : Option (AppState × Log) :=
  (s.update_log log).map (fun s1 => (s1, s1.current_document))

/-- Sequential application of a batch of `update_log` calls.  The
`Arc<Mutex<AppState>>` guard serializes concurrent handlers, so any
interleaving of N requests is some order of atomic `update_log` calls. -/
def apply_all (s : AppState) : List Log → Option AppState
  | [] => some s
  | d :: ds =>
      match s.update_log d with
      | some s1 => apply_all s1 ds
      | none => none

/-- States reachable through the store's operations: the initial state and
any state produced by a successful `update_log`. -/
inductive Reachable : AppState → Prop
  | init : Reachable AppState.new
  | step {s s' : AppState} {d : Log} :
      Reachable s → s.update_log d = some s' → Reachable s'

/-- Modelled from the claim's words (duplicate-name behaviour): the
first-row value at the largest column index at or after position `i` whose
column bears `name` and which has a corresponding first-row value — later
columns overwrite earlier ones. -/
def lastDuplicateWins (row : List Json) : List Column → Nat → String → Option Json
  | [], _, _ => none
  | c :: cs, i, name =>
      match lastDuplicateWins row cs (i + 1) name with
      | some v => some v
      | none => if c.name = name then row.get? i else none

/-- How many indices the projection loop actually inserts at, starting
from position `i`: one per column whose first-row value exists. -/
def liveCount (row : List Json) : List Column → Nat → Nat
  | [], _ => 0
  | _ :: cs, i =>
      (match row.get? i with
       | some _ => 1
       | none => 0) + liveCount row cs (i + 1)

/-! ## Helper lemmas about the map model and the projection loop -/

theorem JsonMap.get_insert_self (m : JsonMap) (k : String) (v : Json) :
    (m.insert k v).get k = some v := by
  induction m with
  | nil => simp [JsonMap.insert, JsonMap.get]
  | cons p m ih =>
      obtain ⟨k', v'⟩ := p
      by_cases h : k' = k <;> simp [JsonMap.insert, JsonMap.get, h, ih]

theorem JsonMap.get_insert_ne (m : JsonMap) (k : String) (v : Json) (k' : String)
    (h : k' ≠ k) : (m.insert k v).get k' = m.get k' := by
  induction m with
  | nil => simp [JsonMap.insert, JsonMap.get, Ne.symm h]
  | cons p m ih =>
      obtain ⟨k2, v2⟩ := p
      by_cases h2 : k2 = k
      · subst h2
        simp [JsonMap.insert, JsonMap.get, Ne.symm h]
      · by_cases h3 : k2 = k' <;> simp [JsonMap.insert, JsonMap.get, h2, h3, h, ih]

theorem JsonMap.size_insert_of_get_none (m : JsonMap) (k : String) (v : Json)
    (h : m.get k = none) : (m.insert k v).size = m.size + 1 := by
  induction m with
  | nil => rfl
  | cons p m ih =>
      obtain ⟨k2, v2⟩ := p
      by_cases h2 : k2 = k
      · simp [JsonMap.get, h2] at h
      · simp only [JsonMap.get, if_neg h2] at h
        simp [JsonMap.insert, JsonMap.size, h2, List.length_cons] at *
        exact ih h

/-- Looking a name up after the projection loop: the rightmost matching
column with a live first-row value wins; absent that, the accumulator's
binding survives. -/
theorem get_projectFrom (row : List Json) :
    ∀ (cols : List Column) (i : Nat) (m : JsonMap) (name : String),
      (projectFrom row cols i m).get name =
        match lastDuplicateWins row cols i name with
        | some v => some v
        | none => m.get name := by
  intro cols
  induction cols with
  | nil => intro i m name; rfl
  | cons c cs ih =>
      intro i m name
      simp only [projectFrom, lastDuplicateWins]
      rw [ih]
      cases hlast : lastDuplicateWins row cs (i + 1) name with
      | some v => rfl
      | none =>
          by_cases hn : c.name = name
          · cases hrow : row.get? i with
            | some v => simp [hrow, hn, JsonMap.get_insert_self]
            | none => simp [hrow, hn]
          · cases hrow : row.get? i with
            | some v =>
                simp only [hrow, hn, if_false]
                exact JsonMap.get_insert_ne m c.name v name (fun e => hn e.symm)
            | none => simp [hrow, hn]

/-- Lookup in the projection of a first row is exactly the
rightmost-duplicate-wins selection. -/
theorem get_projectRow (row : List Json) (cols : List Column) (name : String) :
    (projectRow row cols).get name = lastDuplicateWins row cols 0 name := by
  unfold projectRow
  rw [get_projectFrom]
  cases h : lastDuplicateWins row cols 0 name <;> rfl

/-- A name that no column bears is never selected. -/
theorem lastDuplicateWins_eq_none (row : List Json) :
    ∀ (cols : List Column) (i : Nat) (name : String),
      name ∉ cols.map Column.name → lastDuplicateWins row cols i name = none := by
  intro cols
  induction cols with
  | nil => intro i name _; rfl
  | cons c cs ih =>
      intro i name h
      simp only [List.map_cons, List.mem_cons, not_or] at h
      simp only [lastDuplicateWins]
      rw [ih (i + 1) name h.2]
      have hne : c.name ≠ name := fun e => h.1 e.symm
      simp [hne]

/-- Every selected value comes from an actual column index with an actual
first-row value (nothing is defaulted). -/
theorem lastDuplicateWins_eq_some (row : List Json) :
    ∀ (cols : List Column) (i : Nat) (name : String) (v : Json),
      lastDuplicateWins row cols i name = some v →
      ∃ j c, cols.get? j = some c ∧ c.name = name ∧ row.get? (i + j) = some v := by
  intro cols
  induction cols with
  | nil => intro i name v h; exact absurd h (by simp [lastDuplicateWins])
  | cons c cs ih =>
      intro i name v h
      simp only [lastDuplicateWins] at h
      cases hlast : lastDuplicateWins row cs (i + 1) name with
      | some v' =>
          rw [hlast] at h
          obtain ⟨j, c', hj, hname, hrow⟩ := ih (i + 1) name v' hlast
          refine ⟨j + 1, c', by simpa using hj, hname, ?_⟩
          have : i + (j + 1) = i + 1 + j := by omega
          rw [this, hrow]
          simpa using h
      | none =>
          rw [hlast] at h
          by_cases hn : c.name = name
          · refine ⟨0, c, rfl, hn, ?_⟩
            simpa [hn] using h
          · simp [hn] at h

/-- With pairwise-distinct column names, the selection for the name of the
column at index `j` is exactly the first-row value at index `j`. -/
theorem lastDuplicateWins_of_nodup (row : List Json) :
    ∀ (cols : List Column), (cols.map Column.name).Nodup →
      ∀ (j : Nat) (c : Column), cols.get? j = some c →
      ∀ (base : Nat), lastDuplicateWins row cols base c.name = row.get? (base + j) := by
  intro cols
  induction cols with
  | nil => intro _ j c hj; simp [List.get?] at hj
  | cons c0 cs ih =>
      intro hnd j c hj base
      rw [List.map_cons] at hnd
      have hnd' := List.nodup_cons.mp hnd
      cases j with
      | zero =>
          simp only [List.get?] at hj
          injection hj with hj
          subst hj
          simp only [lastDuplicateWins]
          rw [lastDuplicateWins_eq_none row cs (base + 1) c0.name hnd'.1]
          simp
      | succ j =>
          simp only [List.get?] at hj
          have hmem : c.name ∈ cs.map Column.name :=
            List.mem_map_of_mem Column.name (List.get?_mem hj)
          have hne : c0.name ≠ c.name := fun e => hnd'.1 (by rw [e]; exact hmem)
          simp only [lastDuplicateWins]
          rw [ih hnd'.2 j c hj (base + 1)]
          have harith : base + (j + 1) = base + 1 + j := by omega
          rw [harith]
          cases row.get? (base + 1 + j) <;> simp [hne]

theorem get?_isSome_iff {α : Type} (l : List α) (n : Nat) :
    (l.get? n).isSome ↔ n < l.length := by
  rw [Option.isSome_iff_ne_none, Ne, List.get?_eq_none, Nat.not_le]

theorem liveCount_eq_min (row : List Json) :
    ∀ (cols : List Column) (i : Nat),
      liveCount row cols i = min cols.length (row.length - i) := by
  intro cols
  induction cols with
  | nil => intro i; simp [liveCount]
  | cons c cs ih =>
      intro i
      simp only [liveCount, ih (i + 1), List.length_cons]
      cases hrow : row.get? i with
      | some v =>
          have h : i < row.length := by
            rw [← get?_isSome_iff, hrow]; rfl
          show 1 + min cs.length (row.length - (i + 1)) =
            min (cs.length + 1) (row.length - i)
          omega
      | none =>
          have h : row.length ≤ i := List.get?_eq_none.mp hrow
          show 0 + min cs.length (row.length - (i + 1)) =
            min (cs.length + 1) (row.length - i)
          omega

/-- With pairwise-distinct column names and an accumulator containing none
of them, the projection loop adds exactly one binding per live index. -/
theorem size_projectFrom (row : List Json) :
    ∀ (cols : List Column) (i : Nat) (m : JsonMap),
      (cols.map Column.name).Nodup →
      (∀ c ∈ cols, m.get c.name = none) →
      (projectFrom row cols i m).size = m.size + liveCount row cols i := by
  intro cols
  induction cols with
  | nil => intro i m _ _; simp [projectFrom, liveCount]
  | cons c cs ih =>
      intro i m hnd hfresh
      rw [List.map_cons] at hnd
      have hnd' := List.nodup_cons.mp hnd
      simp only [projectFrom, liveCount]
      cases hrow : row.get? i with
      | some v =>
          have hm : m.get c.name = none := hfresh c (List.mem_cons_self c cs)
          have hfresh' : ∀ x ∈ cs, (m.insert c.name v).get x.name = none := by
            intro x hx
            have hne : x.name ≠ c.name := fun e =>
              hnd'.1 (by rw [← e]; exact List.mem_map_of_mem Column.name hx)
            rw [JsonMap.get_insert_ne m c.name v x.name hne]
            exact hfresh x (List.mem_cons_of_mem c hx)
          rw [ih (i + 1) (m.insert c.name v) hnd'.2 hfresh']
          rw [JsonMap.size_insert_of_get_none m c.name v hm]
          show m.size + 1 + liveCount row cs (i + 1) =
            m.size + (1 + liveCount row cs (i + 1))
          omega
      | none =>
          have hfresh' : ∀ x ∈ cs, m.get x.name = none := fun x hx =>
            hfresh x (List.mem_cons_of_mem c hx)
          rw [ih (i + 1) m hnd'.2 hfresh']
          show m.size + liveCount row cs (i + 1) =
            m.size + (0 + liveCount row cs (i + 1))
          omega

/-- Concatenating one more formatted line. -/
theorem join_cons (s : String) (l : List String) :
    String.join (s :: l) = s ++ String.join l := by
  have h : ∀ (l : List String) (s : String),
      List.foldl (fun r t => r ++ t) s l =
        s ++ List.foldl (fun r t => r ++ t) "" l := by
    intro l
    induction l with
    | nil => intro s; simp [String.append_empty]
    | cons x xs ih =>
        intro s
        simp only [List.foldl]
        rw [ih (s ++ x), ih ("" ++ x), String.empty_append, String.append_assoc]
  simp only [String.join, List.foldl]
  rw [h l ("" ++ s), String.empty_append]

/-- A successful `update_log` stores the submitted document wholesale. -/
theorem update_log_current (s s1 : AppState) (d : Log)
    (h : s.update_log d = some s1) : s1.current_document = d := by
  unfold AppState.update_log at h
  cases hp : project d with
  | none => rw [hp] at h; simp at h
  | some m =>
      rw [hp] at h
      simp at h
      rw [← h]

/-! ## Claim theorems -/

/-- C1 (counterexample): the projection is NOT total as claimed — on the
representable document with an empty `rows` sequence and a nonempty
`columns` sequence, `update_log` indexes `values[0]` out of bounds and
panics (`none` in the model). -/
theorem claim_C1_counterexample :
    project { values := [], took := 0,
              columns := [{ name := "a", column_type := "t" }] } = none := rfl

/-- C1 (amended): the projection succeeds for every Document whose `rows`
is nonempty or whose `columns` is empty (in particular for any
`columns`/first-row length mismatch), and every binding it produces comes
from a column index with an existing first-row value — skipped, never
defaulted.  (On empty `rows` with nonempty `columns` the code panics, so
totality over all Documents fails.) -/
theorem claim_C1_projection_total_on_nonempty_rows :
    ∀ (log : Log), log.values ≠ [] ∨ log.columns = [] →
      ∃ m, project log = some m ∧
        ∀ name v, m.get name = some v →
          ∃ i c, log.columns.get? i = some c ∧ c.name = name ∧
            (log.values.headD []).get? i = some v := by
  intro log h
  obtain ⟨vals, t, cols⟩ := log
  cases vals with
  | nil =>
      cases h with
      | inl h => exact absurd rfl h
      | inr h =>
          have h' : cols = [] := h
          subst h'
          refine ⟨[], rfl, ?_⟩
          intro name v hv
          simp [JsonMap.get] at hv
  | cons r rest =>
      refine ⟨projectRow r cols, rfl, ?_⟩
      intro name v hv
      rw [get_projectRow] at hv
      obtain ⟨j, c, hj, hname, hrow⟩ := lastDuplicateWins_eq_some r cols 0 name v hv
      refine ⟨j, c, hj, hname, ?_⟩
      simpa using hrow

/-- C1 (witness): Scenario 3 shape — `columns` longer than `rows[0]`;
the projection succeeds and every binding comes from a live index. -/
theorem claim_C1_witness :
    (([[Json.num 1]] : List (List Json)) ≠ [] ∨
      ([{ name := "a", column_type := "t" },
        { name := "b", column_type := "t" }] : List Column) = []) ∧
    ∃ m, project { values := [[Json.num 1]], took := 0,
                   columns := [{ name := "a", column_type := "t" },
                               { name := "b", column_type := "t" }] } = some m ∧
      ∀ name v, m.get name = some v →
        ∃ i c, (Log.mk [[Json.num 1]] 0
                  [{ name := "a", column_type := "t" },
                   { name := "b", column_type := "t" }]).columns.get? i = some c ∧
          c.name = name ∧
          ((Log.mk [[Json.num 1]] 0
              [{ name := "a", column_type := "t" },
               { name := "b", column_type := "t" }]).values.headD []).get? i = some v :=
  ⟨Or.inl (by simp),
   claim_C1_projection_total_on_nonempty_rows
     (Log.mk [[Json.num 1]] 0
       [{ name := "a", column_type := "t" }, { name := "b", column_type := "t" }])
     (Or.inl (by simp))⟩

/-- C3: for every Projection, the rendered display buffer equals the
concatenation, in the fixed key order, of `"k": <pretty(P[k])>\n` for
present keys and `"k": unknown\n` for absent ones (`specRenderBuffer` is
written from the spec's wording, `draw_message` from the code). -/
theorem claim_C3_render_buffer_eq_spec :
    ∀ (P : JsonMap), draw_message P = specRenderBuffer P displayKeys := by
  have h : ∀ (P : JsonMap) (ks : List String),
      String.join (ks.map (fun k => format_by_key k P)) = specRenderBuffer P ks := by
    intro P ks
    induction ks with
    | nil => rfl
    | cons k ks ih =>
        rw [List.map_cons, join_cons, ih]
        simp only [specRenderBuffer, format_by_key]
  intro P
  exact h P displayKeys

/-- C4: in the initial state and in every state reachable through the
store's operations, the stored Projection is exactly the projection of the
stored Document — old and new are never mixed. -/
theorem claim_C4_projection_invariant :
    ∀ (s : AppState), Reachable s →
      project s.current_document = some s.mapped_document := by
  intro s h
  induction h with
  | init => rfl
  | @step s1 s2 d hr hup ih =>
      unfold AppState.update_log at hup
      cases hp : project d with
      | none => rw [hp] at hup; simp at hup
      | some m =>
          rw [hp] at hup
          simp at hup
          rw [← hup]
          exact hp

/-- C4 (witness): the invariant at the initial state. -/
theorem claim_C4_witness :
    project AppState.new.current_document = some AppState.new.mapped_document :=
  claim_C4_projection_invariant AppState.new Reachable.init

/-- C5 (counterexample): ingestion is NOT a total replace-and-echo — on a
document with empty `values` and a nonempty `columns`, the handler panics
inside `update_log` and never produces a response. -/
theorem claim_C5_counterexample :
    handle_data AppState.new
      { values := [], took := 0,
        columns := [{ name := "a", column_type := "t" }] } = none := rfl

/-- C5 (amended): whenever the handler completes, it has stored the
submitted document wholesale (in particular `took` is carried through
unchanged) and echoes the now-current stored document as the response. -/
theorem claim_C5_replace_and_echo :
    ∀ (s : AppState) (d : Log) (s1 : AppState) (resp : Log),
      handle_data s d = some (s1, resp) →
      s1.current_document = d ∧ resp = s1.current_document ∧
        resp = d ∧ resp.took = d.took := by
  intro s d s1 resp h
  unfold handle_data at h
  cases hu : s.update_log d with
  | none => rw [hu] at h; simp at h
  | some s2 =>
      rw [hu] at h
      simp at h
      have hc := update_log_current s s2 d hu
      obtain ⟨h1, h2⟩ := h
      refine ⟨?_, ?_, ?_, ?_⟩
      · rw [← h1]; exact hc
      · rw [← h1, ← h2]
      · rw [← h2]; exact hc
      · rw [← h2, hc]

/-- C5 (witness): replacing the initial state with the empty document
stores and echoes it. -/
theorem claim_C5_witness :
    handle_data AppState.new Log.new =
      some ({ current_document := Log.new, mapped_document := [] }, Log.new) ∧
    ({ current_document := Log.new, mapped_document := [] } : AppState).current_document
        = Log.new ∧
    Log.new = ({ current_document := Log.new, mapped_document := [] } : AppState).current_document ∧
    Log.new = Log.new ∧ Log.new.took = Log.new.took :=
  ⟨rfl, claim_C5_replace_and_echo AppState.new Log.new
    { current_document := Log.new, mapped_document := [] } Log.new rfl⟩

/-- C6: replacing twice with the same Document is the same as replacing
once — `update_log` depends only on the submitted document, so the second
replace reproduces the state of the first (and both panic together). -/
theorem claim_C6_replace_idempotent :
    ∀ (s : AppState) (d : Log),
      (s.update_log d).bind (fun s1 => s1.update_log d) = s.update_log d := by
  intro s d
  unfold AppState.update_log
  cases hp : project d with
  | none => simp
  | some m => simp

/-- C8: in the initial state (empty store, before any ingestion) the
rendered display buffer is exactly six lines, one per fixed key, each
reading `"<key>": unknown\n`. -/
theorem claim_C8_initial_render :
    draw_message AppState.new.mapped_document =
      "\"@timestamp\": unknown\n\"agent.id\": unknown\n\"host.name\": unknown\n\"host.os.name\": unknown\n\"user.name\": unknown\n\"host.ip\": unknown\n" := rfl

/-- C2 (counterexample): with two columns sharing one name (both indices
live in the first row), the projection holds 1 entry, not
`min(len(columns), len(rows[0])) = 2` — the claimed entry count fails. -/
theorem claim_C2_counterexample :
    (project { values := [[Json.null, Json.bool true]], took := 0,
               columns := [{ name := "a", column_type := "x" },
                           { name := "a", column_type := "y" }] }).map JsonMap.size
        = some 1 ∧
    min (List.length [({ name := "a", column_type := "x" } : Column),
                      { name := "a", column_type := "y" }])
        (List.length [Json.null, Json.bool true]) = 2 ∧
    (1 : Nat) ≠ 2 :=
  ⟨rfl, rfl, by decide⟩

/-- C2 (amended): for a Document with a nonempty `rows` whose column names
are pairwise distinct, the projection has exactly
`min(len(columns), len(rows[0]))` entries and maps `columns[i].name` to
`rows[0][i]` for every `i` below that minimum.  (With duplicate column
names later entries overwrite earlier ones, so the count can be smaller.) -/
theorem claim_C2_projection_min_entries :
    ∀ (r : List Json) (rest : List (List Json)) (t : Nat) (cols : List Column),
      (cols.map Column.name).Nodup →
      ∃ m, project { values := r :: rest, took := t, columns := cols } = some m ∧
        m.size = min cols.length r.length ∧
        ∀ i c, i < min cols.length r.length → cols.get? i = some c →
          m.get c.name = r.get? i := by
  intro r rest t cols hnd
  refine ⟨projectRow r cols, rfl, ?_, ?_⟩
  · unfold projectRow
    rw [size_projectFrom r cols 0 [] hnd (fun c _ => rfl)]
    rw [liveCount_eq_min]
    show 0 + min cols.length (r.length - 0) = min cols.length r.length
    omega
  · intro i c _hi hget
    rw [get_projectRow, lastDuplicateWins_of_nodup r cols hnd i c hget 0]
    simp

/-- C2 (witness): Scenario-2-like document with three distinct columns and
a two-value first row; the projection has `min 3 2 = 2` entries and maps
each live index. -/
theorem claim_C2_witness :
    (([{ name := "a", column_type := "t" }, { name := "b", column_type := "t" },
       { name := "c", column_type := "t" }] : List Column).map Column.name).Nodup ∧
    ∃ m, project { values := [[Json.num 1, Json.str "x"]], took := 5,
                   columns := [{ name := "a", column_type := "t" },
                               { name := "b", column_type := "t" },
                               { name := "c", column_type := "t" }] } = some m ∧
      m.size = min (List.length [({ name := "a", column_type := "t" } : Column),
                                 { name := "b", column_type := "t" },
                                 { name := "c", column_type := "t" }])
                   (List.length [Json.num 1, Json.str "x"]) ∧
      ∀ i c, i < min (List.length [({ name := "a", column_type := "t" } : Column),
                                   { name := "b", column_type := "t" },
                                   { name := "c", column_type := "t" }])
                     (List.length [Json.num 1, Json.str "x"]) →
        ([{ name := "a", column_type := "t" }, { name := "b", column_type := "t" },
          { name := "c", column_type := "t" }] : List Column).get? i = some c →
        m.get c.name = [Json.num 1, Json.str "x"].get? i :=
  ⟨by decide,
   claim_C2_projection_min_entries [Json.num 1, Json.str "x"] [] 5
     [{ name := "a", column_type := "t" }, { name := "b", column_type := "t" },
      { name := "c", column_type := "t" }] (by decide)⟩

/-- C7: the control loop exits exactly on a press-phase key event carrying
the character `'q'` (any modifiers): over any finite event stream, the
loop breaks iff such an event occurs; release/repeat events of `'q'`,
other keys, and non-key events leave it running. -/
theorem claim_C7_quit_on_q_press :
    ∀ (evs : List Event), take_input evs = true ↔
      ∃ mods, Event.key { code := KeyCode.char 'q', kind := KeyEventKind.press,
                          modifiers := mods } ∈ evs := by
  have hstep : ∀ (e : Event), take_input_step e = true ↔
      ∃ mods, e = Event.key { code := KeyCode.char 'q',
                              kind := KeyEventKind.press, modifiers := mods } := by
    intro e
    cases e with
    | other => simp [take_input_step]
    | key k =>
        obtain ⟨code, kind, mods⟩ := k
        cases code with
        | nonChar => cases kind <;> simp [take_input_step]
        | char c =>
            cases kind with
            | press => simp [take_input_step]
            | release => simp [take_input_step]
            | repeatKind => simp [take_input_step]
  intro evs
  induction evs with
  | nil => simp [take_input]
  | cons e es ih =>
      simp only [take_input]
      by_cases hs : take_input_step e = true
      · rw [if_pos hs]
        obtain ⟨m, he⟩ := (hstep e).mp hs
        subst he
        constructor
        · intro _; exact ⟨m, List.mem_cons_self _ _⟩
        · intro _; rfl
      · rw [if_neg hs, ih]
        constructor
        · rintro ⟨m, hm⟩; exact ⟨m, List.mem_cons_of_mem e hm⟩
        · rintro ⟨m, hm⟩
          rcases List.mem_cons.mp hm with he | hm'
          · exact absurd ((hstep e).mpr ⟨m, he.symm⟩) hs
          · exact ⟨m, hm'⟩

/-- C9: any serialized order of N replace calls (the mutex admits no other
interleaving) leaves as stored Document exactly one of the N submitted
documents — never a composite. -/
theorem claim_C9_serialized_replaces :
    ∀ (ds : List Log) (s s1 : AppState), ds ≠ [] → apply_all s ds = some s1 →
      ∃ d ∈ ds, s1.current_document = d := by
  intro ds
  induction ds with
  | nil => intro s s1 h _; exact absurd rfl h
  | cons d ds ih =>
      intro s s1 _ happ
      cases hu : s.update_log d with
      | none => simp [apply_all, hu] at happ
      | some s2 =>
          simp only [apply_all, hu] at happ
          cases ds with
          | nil =>
              simp only [apply_all] at happ
              simp at happ
              subst happ
              exact ⟨d, List.mem_cons_self _ _, update_log_current s s2 d hu⟩
          | cons d2 ds2 =>
              obtain ⟨d', hmem, hcur⟩ := ih s2 s1 (by simp) happ
              exact ⟨d', List.mem_cons_of_mem d hmem, hcur⟩

/-- C9 (witness): two successive replaces starting from the initial state;
the final stored document is the second submitted one. -/
theorem claim_C9_witness :
    (([Log.new, Log.mk [[Json.num 7]] 3 [{ name := "a", column_type := "t" }]]
        : List Log) ≠ []) ∧
    apply_all AppState.new
        [Log.new, Log.mk [[Json.num 7]] 3 [{ name := "a", column_type := "t" }]]
      = some { current_document :=
                 Log.mk [[Json.num 7]] 3 [{ name := "a", column_type := "t" }],
               mapped_document := [("a", Json.num 7)] } ∧
    ∃ d ∈ ([Log.new, Log.mk [[Json.num 7]] 3 [{ name := "a", column_type := "t" }]]
        : List Log),
      ({ current_document :=
           Log.mk [[Json.num 7]] 3 [{ name := "a", column_type := "t" }],
         mapped_document := [("a", Json.num 7)] } : AppState).current_document = d :=
  ⟨by simp, rfl,
   claim_C9_serialized_replaces
     [Log.new, Log.mk [[Json.num 7]] 3 [{ name := "a", column_type := "t" }]]
     AppState.new
     { current_document :=
         Log.mk [[Json.num 7]] 3 [{ name := "a", column_type := "t" }],
       mapped_document := [("a", Json.num 7)] }
     (by simp) rfl⟩

/-- C10: lookup in the projection is rightmost-duplicate-wins — for every
first row and column list, the value bound to a name is the first-row
value at the largest column index bearing that name and owning a first-row
value (`lastDuplicateWins`); consequently, with two same-named live
columns the projection holds strictly fewer than
`min(len(columns), len(rows[0]))` entries. -/
theorem claim_C10_duplicate_names_last_index_wins :
    (∀ (r : List Json) (cols : List Column) (name : String),
       (projectRow r cols).get name = lastDuplicateWins r cols 0 name) ∧
    (projectRow [Json.num 1, Json.num 2]
        [{ name := "a", column_type := "x" },
         { name := "a", column_type := "y" }]).size
      < min (List.length [({ name := "a", column_type := "x" } : Column),
                          { name := "a", column_type := "y" }])
            (List.length [Json.num 1, Json.num 2]) :=
  ⟨get_projectRow, by decide⟩

end DashView
